import Mathlib

/-!
Verification of the CalenderAI document-extraction and recurrence core.

The definitions below are a shallow embedding of the repository's
TypeScript/Deno source:
 * the OCR text normalizer `cleanOCRText` and the line splitter
   `splitDocumentIntoLines` (edge function `process-document`);
 * the civil-date arithmetic used to model the JavaScript `Date`
   operations, the weekday-token map, and the recurrence expander
   `expandRangeWithDays` (`src/lib/document-processor.ts`);
 * the per-line materializer `convertLineEventsToExtractedEvents`,
   the batch driver `extractEventsFromLines` and the retrying HTTP
   client `fetchWithRetry` (edge function);
 * the database-facing operations `importEventToCalendar` /
   `markEventAsImported`, modelled by explicit state passing over a
   record of table contents, with a boolean oracle for the success of
   the calendar insert.

JavaScript strings are modelled as `List Char` / `String`; regex
replacements are modelled by direct recursive functions that reproduce
the semantics of the concrete patterns appearing in the source
(character classes, the `\s+` collapse, and the two-character
boundary-insertion rules, including the resumption behaviour of global
`String.replace`).
-/

namespace CalendarAI

/-! ## Character classes of the regexes in `cleanOCRText` -/

/-- The control characters removed by
`/[\u0000-\u0008\u000B-\u000C\u000E-\u001F\u007F-\u009F]/g`. -/
def isCtl (c : Char) : Bool :=
  c.toNat ≤ 0x8 ||
  (0xB ≤ c.toNat && c.toNat ≤ 0xC) ||
  (0xE ≤ c.toNat && c.toNat ≤ 0x1F) ||
  (0x7F ≤ c.toNat && c.toNat ≤ 0x9F)

/-- The single-character punctuation normalizations: curly single quotes
to `'`, curly double quotes to `"`, en/em dashes to `-`. -/
def charNorm (c : Char) : Char :=
  if c.toNat = 0x2018 || c.toNat = 0x2019 then '\''
  else if c.toNat = 0x201C || c.toNat = 0x201D then '"'
  else if c.toNat = 0x2013 || c.toNat = 0x2014 then '-'
  else c

/-- JavaScript's `\s` character class (WhiteSpace and LineTerminator
code points), which also drives `String.prototype.trim`. -/
def isJsWs (c : Char) : Bool :=
  c.toNat = 0x20 || c.toNat = 0x9 || c.toNat = 0xA || c.toNat = 0xB ||
  c.toNat = 0xC || c.toNat = 0xD || c.toNat = 0xA0 || c.toNat = 0x1680 ||
  (0x2000 ≤ c.toNat && c.toNat ≤ 0x200A) || c.toNat = 0x2028 ||
  c.toNat = 0x2029 || c.toNat = 0x202F || c.toNat = 0x205F ||
  c.toNat = 0x3000 || c.toNat = 0xFEFF

/-- Pair matched by `/([a-z])([A-Z])/`. -/
def luP (a b : Char) : Bool := a.isLower && b.isUpper

/-- Pair matched by `/([0-9])([a-zA-Z])/`. -/
def dlP (a b : Char) : Bool := a.isDigit && b.isAlpha

/-- Pair matched by `/([a-zA-Z])([0-9])/`. -/
def ldP (a b : Char) : Bool := a.isAlpha && b.isDigit

/-- `.replace(/\s+/g, ' ')`, scanning with a flag telling whether the
previous character was whitespace: the first character of each maximal
whitespace run becomes a single ASCII space and the rest of the run is
dropped. -/
def collapseWsAux (prevWs : Bool) : List Char → List Char
  | [] => []
  | c :: rest =>
    if isJsWs c then
      if prevWs then collapseWsAux true rest
      else ' ' :: collapseWsAux true rest
    else c :: collapseWsAux false rest

/-- `.replace(/\s+/g, ' ')`: every maximal run of whitespace becomes a
single ASCII space. -/
def collapseWs (l : List Char) : List Char :=
  collapseWsAux false l

/-- `.replace(/(X)(Y)/g, '$1 $2')` for two single-character classes:
when a pair matches, a space is inserted and scanning resumes after the
matched pair (the semantics of a global two-character regex replace). -/
def insertBetween (p : Char → Char → Bool) : List Char → List Char
  | c1 :: c2 :: rest =>
    if p c1 c2 then c1 :: ' ' :: c2 :: insertBetween p rest
    else c1 :: insertBetween p (c2 :: rest)
  | l => l

/-- `String.prototype.split(sep)` for a one-character separator. -/
def splitOnChar (sep : Char) : List Char → List (List Char)
  | [] => [[]]
  | c :: rest =>
    if c = sep then [] :: splitOnChar sep rest
    else
      match splitOnChar sep rest with
      | [] => [[c]]
      | line :: lines => (c :: line) :: lines

/-- `String.prototype.split('\n')`. -/
def splitOnNl (l : List Char) : List (List Char) :=
  splitOnChar '\n' l

/-- `Array.prototype.join('\n')`. -/
def joinNl (ls : List (List Char)) : List Char :=
  List.intercalate ['\n'] ls

/-- `String.prototype.trim()` (drops JS whitespace at both ends). -/
def trimChars (l : List Char) : List Char :=
  ((l.dropWhile isJsWs).reverse.dropWhile isJsWs).reverse

/-- `cleanOCRText`, on the character list of the input string: strip
control characters, normalize punctuation, collapse whitespace runs,
insert spaces at lower→upper and letter↔digit boundaries, then split on
`'\n'`, trim each piece, drop empty pieces and rejoin. -/
def cleanChars (l : List Char) : List Char :=
  let s :=
    insertBetween ldP
      (insertBetween dlP
        (insertBetween luP
          (collapseWs ((l.filter (fun c => !isCtl c)).map charNorm))))
  joinNl (((splitOnNl s).map trimChars).filter (fun x => !x.isEmpty))

/-- `cleanOCRText` on strings. -/
def cleanOCRText (s : String) : String :=
  String.mk (cleanChars s.data)

/-! ## `splitDocumentIntoLines` -/

/-- One record of the line splitter: `{ line_number, text }`. -/
structure LineContext where
  line_number : Nat
  text : String
deriving Repr, DecidableEq

/-- `String.prototype.trim()` on strings. -/
def jsTrim (s : String) : String :=
  String.mk (trimChars s.data)

/-- `String.prototype.split(/\r?\n/)`: each `"\n"` or `"\r\n"` ends a
line. -/
def splitNlCr : List Char → List (List Char)
  | [] => [[]]
  | '\r' :: '\n' :: rest => [] :: splitNlCr rest
  | c :: rest =>
    if c = '\n' then [] :: splitNlCr rest
    else
      match splitNlCr rest with
      | [] => [[c]]
      | line :: lines => (c :: line) :: lines

/-- `splitDocumentIntoLines`: split on `/\r?\n/`, number the lines from
1, trim each, and keep the non-empty ones. -/
def splitDocumentIntoLines (text : String) : List LineContext :=
  ((splitNlCr text.data).enum.map
      (fun p => { line_number := p.1 + 1, text := jsTrim (String.mk p.2) })).filter
    (fun lc => !lc.text.data.isEmpty)

/-! ## Civil-date arithmetic

The source manipulates dates through JavaScript `Date` values: an ISO
`YYYY-MM-DD` string parses to UTC midnight of that civil date,
`getDay()` returns its weekday (Sunday = 0, as in the Deno/UTC runtime
the edge function executes in), `setDate(getDate() + 1)` advances one
civil day and `toISOString().split('T')[0]` prints the civil date back.
We model a date by its signed day count since 1970-01-01 and convert to
and from `year-month-day` with the standard civil-calendar algorithms. -/

/-- Day count since 1970-01-01 of a civil date (proleptic Gregorian). -/
def daysFromCivil (y m d : Int) : Int :=
  let ys := if m ≤ 2 then y - 1 else y
  let era := Int.ediv ys 400
  let yoe := ys - era * 400
  let mp := Int.emod (m + 9) 12
  let doy := Int.ediv (153 * mp + 2) 5 + d - 1
  let doe := yoe * 365 + Int.ediv yoe 4 - Int.ediv yoe 100 + doy
  era * 146097 + doe - 719468

/-- Civil date `(year, month, day)` of a day count since 1970-01-01. -/
def civilFromDays (z0 : Int) : Int × Int × Int :=
  let z := z0 + 719468
  let era := Int.ediv z 146097
  let doe := z - era * 146097
  let yoe :=
    Int.ediv (doe - Int.ediv doe 1460 + Int.ediv doe 36524 - Int.ediv doe 146096) 365
  let y := yoe + era * 400
  let doy := doe - (365 * yoe + Int.ediv yoe 4 - Int.ediv yoe 100)
  let mp := Int.ediv (5 * doy + 2) 153
  let d := doy - Int.ediv (153 * mp + 2) 5 + 1
  let m := if mp < 10 then mp + 3 else mp - 9
  (if m ≤ 2 then y + 1 else y, m, d)

/-- Zero-pad to two digits (month/day in an ISO date string). -/
def pad2 (n : Int) : String :=
  if n < 10 then "0" ++ toString n else toString n

/-- Zero-pad to four digits (year in an ISO date string). -/
def pad4 (n : Int) : String :=
  if n < 10 then "000" ++ toString n
  else if n < 100 then "00" ++ toString n
  else if n < 1000 then "0" ++ toString n
  else toString n

/-- `date.toISOString().split('T')[0]` for the date at day count `z`. -/
def isoOfDay (z : Int) : String :=
  let c := civilFromDays z
  pad4 c.1 ++ "-" ++ pad2 c.2.1 ++ "-" ++ pad2 c.2.2

/-- Value of a non-empty all-digit character sequence. -/
def digitsToNatAux : List Char → Nat → Option Nat
  | [], acc => some acc
  | c :: rest, acc =>
    if c.isDigit then digitsToNatAux rest (acc * 10 + (c.toNat - 48)) else none

/-- Value of a non-empty all-digit character sequence (none otherwise). -/
def digitsToNat? : List Char → Option Nat
  | [] => none
  | c :: rest => digitsToNatAux (c :: rest) 0

/-- `new Date(s)` for a well-formed ISO `YYYY-MM-DD` string: the day
count of that civil date; `none` models an invalid date. -/
def parseISODate (s : String) : Option Int :=
  match (splitOnChar '-' s.data).map digitsToNat? with
  | [some y, some m, some d] => some (daysFromCivil y m d)
  | _ => none

/-- `date.getDay()`: weekday of the date at day count `z`, Sunday = 0.
1970-01-01 (day count 0) was a Thursday. -/
def jsGetDay (z : Int) : Nat :=
  (Int.emod (z + 4) 7).toNat

/-! ## The recurrence expander (`expandRangeWithDays`) -/

/-- The `dayMap` table: weekday names and their abbreviations
(including the irregular `tues`, `thur`, `thurs`) to 0–6. -/
def dayMap (s : String) : Option Nat :=
  if s = "sunday" || s = "sun" then some 0
  else if s = "monday" || s = "mon" then some 1
  else if s = "tuesday" || s = "tue" || s = "tues" then some 2
  else if s = "wednesday" || s = "wed" then some 3
  else if s = "thursday" || s = "thu" || s = "thur" || s = "thurs" then some 4
  else if s = "friday" || s = "fri" then some 5
  else if s = "saturday" || s = "sat" then some 6
  else none

/-- `String.prototype.toLowerCase()` on the ASCII letters (the only
characters the weekday tokens use). -/
def asciiLower (c : Char) : Char :=
  if 'A' ≤ c && c ≤ 'Z' then Char.ofNat (c.toNat + 32) else c

/-- `dayOfWeekStr.toLowerCase().split(',').map(trim).map(dayMap).filter(defined)`. -/
def parseDaysOfWeek (s : String) : List Nat :=
  ((splitOnChar ',' (s.data.map asciiLower)).map
      (fun t => String.mk (trimChars t))).filterMap dayMap

/-- One iteration per remaining day of the
`while (currentDate <= endDate)` walk: emit the current day when its
weekday is in the set, then advance one day. -/
def expandDaysGo (daysOfWeek : List Nat) : Nat → Int → List Int
  | 0, _ => []
  | fuel + 1, cur =>
    (if jsGetDay cur ∈ daysOfWeek then [cur] else []) ++
      expandDaysGo daysOfWeek fuel (cur + 1)

/-- The `while (currentDate <= endDate)` walk: every day count from
`cur` to `endD` inclusive whose weekday is in `daysOfWeek`.  The loop
runs exactly `endD + 1 - cur` times (zero when `cur > endD`). -/
def expandDays (daysOfWeek : List Nat) (endD cur : Int) : List Int :=
  expandDaysGo daysOfWeek (endD + 1 - cur).toNat cur

/-- One row produced by the expander in `document-processor.ts`
(`{ title, description, event_date }`). -/
structure CalInsertRow where
  title : String
  description : Option String
  event_date : String
deriving Repr, DecidableEq

/-- `expandRangeWithDays` of `src/lib/document-processor.ts`: parse the
two dates and the weekday tokens, and emit one row per matching day in
the inclusive range; an unparseable date or an empty parsed weekday set
yields no rows. -/
def expandRangeWithDays (title : String) (description : Option String)
    (startDateStr endDateStr dayOfWeekStr : String) : List CalInsertRow :=
  match parseISODate startDateStr, parseISODate endDateStr with
  | some s, some e =>
    let daysOfWeek := parseDaysOfWeek dayOfWeekStr
    if daysOfWeek.isEmpty then []
    else
      (expandDays daysOfWeek e s).map
        (fun z => { title := title, description := description, event_date := isoOfDay z })
  | _, _ => []

/-! ## The materializer (`convertLineEventsToExtractedEvents`)

The extraction service's per-line result (`LineExtraction`).  Optional
string fields model both an absent key and an empty string; JavaScript
truthiness (`!x` on a possibly-undefined string) is `strTruthy`. -/

structure LineExtraction where
  line_number : Int
  event : String
  date_text : String
  normalized_date : Option String := none
  normalized_end_date : Option String := none
  day_of_week : Option String := none
  recurrence_pattern : Option String := none
  is_range_with_day : Bool := false
deriving Repr, DecidableEq

/-- JavaScript truthiness of a possibly-undefined string field. -/
def strTruthy : Option String → Bool
  | none => false
  | some s => !s.data.isEmpty

/-- `x || null` on a possibly-undefined string field. -/
def orNullStr (o : Option String) : Option String :=
  if strTruthy o then o else none

/-- `a || b` on strings. -/
def orElseStr (a b : String) : String :=
  if a.data.isEmpty then b else a

/-- The `metadata` bag stored on an `ExtractedEvent`; `none` models an
absent key. -/
structure EEMeta where
  date_text : String := ""
  normalized_date : Option String := none
  normalized_end_date : Option String := none
  line_number : Int := 0
  day_of_week : Option String := none
  recurrence_pattern : Option String := none
  is_range_with_day : Bool := false
  is_expanded_from_range : Bool := false
deriving Repr, DecidableEq

/-- An `ExtractedEvent` as built by the edge function. -/
structure ExtractedEvent where
  title : String
  description : Option String := none
  event_date : String
  start_time : Option String := none
  end_time : Option String := none
  location : Option String := none
  category : String
  priority : String
  confidence : Nat
  metadata : EEMeta
deriving Repr, DecidableEq

/-- The loop body of `convertLineEventsToExtractedEvents` for one
line-extraction result: skip when there is no date information at all;
store a deferred range event (confidence 85) when the range-with-day
guard holds; otherwise store a single event with the normalized date
(confidence 90) or the raw date text (confidence 70). -/
def convertOne (e : LineExtraction) : List ExtractedEvent :=
  if !strTruthy e.normalized_date && e.date_text.data.isEmpty then []
  else if e.is_range_with_day && strTruthy e.normalized_date &&
      strTruthy e.normalized_end_date && strTruthy e.day_of_week then
    [{ title := orElseStr e.event e.date_text
       description := some (orElseStr e.event e.date_text)
       event_date := e.normalized_date.getD ""
       category := "other"
       priority := "medium"
       confidence := 85
       metadata :=
         { date_text := e.date_text
           normalized_date := e.normalized_date
           normalized_end_date := e.normalized_end_date
           line_number := e.line_number
           day_of_week := e.day_of_week
           recurrence_pattern := orNullStr e.recurrence_pattern
           is_range_with_day := true
           is_expanded_from_range := false } }]
  else
    [{ title := orElseStr e.event e.date_text
       description := some (orElseStr e.event e.date_text)
       event_date := if strTruthy e.normalized_date then e.normalized_date.getD "" else e.date_text
       category := "other"
       priority := "medium"
       confidence := if strTruthy e.normalized_date then 90 else 70
       metadata :=
         { date_text := e.date_text
           normalized_end_date := orNullStr e.normalized_end_date
           line_number := e.line_number
           day_of_week := orNullStr e.day_of_week
           recurrence_pattern := orNullStr e.recurrence_pattern
           is_range_with_day := false
           is_expanded_from_range := false } }]

/-- `convertLineEventsToExtractedEvents`. -/
def convertLineEventsToExtractedEvents (l : List LineExtraction) : List ExtractedEvent :=
  (l.map convertOne).flatten

/-! ## The batch driver (`extractEventsFromLines`)

The extraction call for a batch is abstracted by an oracle
`call : Nat → List LineContext → Option (List LineExtraction)` giving,
for each batch index, either the parsed results or `none` for a thrown
batch-level failure.  The driver's externally visible side effects are
recorded as a trace of operations. -/

/-- One observable side effect of the batch driver: an
`extracted_events` insert of a batch's converted rows, or an
inter-batch sleep. -/
inductive BatchOp where
  | insert (rows : List ExtractedEvent)
  | delay (ms : Nat)
deriving Repr, DecidableEq

/-- The `for (let i = 0; i < lines.length; i += BATCH_SIZE)` slicing
with `BATCH_SIZE = 10`, with `fuel` bounding the iteration count (each
iteration consumes at least one line, so `lines.length` is enough). -/
def mkBatchesGo : Nat → List LineContext → List (List LineContext)
  | _, [] => []
  | 0, _ :: _ => []
  | fuel + 1, c :: rest => ((c :: rest).take 10) :: mkBatchesGo fuel ((c :: rest).drop 10)

/-- The batch slicing of `extractEventsFromLines`. -/
def mkBatches (lines : List LineContext) : List (List LineContext) :=
  mkBatchesGo lines.length lines

/-- The body of `extractEventsFromLines` from batch index `i` on: a
successful call appends its events to the accumulator and (when it
returned any events) inserts the converted rows; a failed call is
caught and contributes nothing; a 400ms sleep separates consecutive
batches. -/
def runBatches (call : Nat → List LineContext → Option (List LineExtraction)) :
    List (List LineContext) → Nat → List LineExtraction × List BatchOp
  | [], _ => ([], [])
  | b :: rest, i =>
    let step : List LineExtraction × List BatchOp :=
      match call i b with
      | some batchEvents =>
        (batchEvents,
          if batchEvents.isEmpty then []
          else [BatchOp.insert (convertLineEventsToExtractedEvents batchEvents)])
      | none => ([], [])
    let delayOps : List BatchOp := if rest.isEmpty then [] else [BatchOp.delay 400]
    let tail := runBatches call rest (i + 1)
    (step.1 ++ tail.1, step.2 ++ delayOps ++ tail.2)

/-- `extractEventsFromLines`: slice into batches of 10 and run them
sequentially from index 0. -/
def extractEventsFromLines (call : Nat → List LineContext → Option (List LineExtraction))
    (lines : List LineContext) : List LineExtraction × List BatchOp :=
  runBatches call (mkBatches lines) 0

/-! ## The retrying fetch (`fetchWithRetry`)

The network is abstracted by an oracle `responses : Nat → FetchResult`
giving the outcome of the fetch on each attempt. -/

/-- Outcome of one `fetch`: an HTTP response with a status code, or a
thrown network error. -/
inductive FetchResult where
  | resp (status : Nat)
  | netErr
deriving Repr, DecidableEq

/-- The `delays` array of `fetchWithRetry`. -/
def backoffDelays : List Nat := [500, 1000, 2000]

/-- Result of `fetchWithRetry`: whether it returned a response, the
error message it threw otherwise, and the backoff sleeps it performed. -/
structure RetryOutcome where
  ok : Bool
  error : Option String
  delays : List Nat
deriving Repr, DecidableEq

/-- The attempt loop of `fetchWithRetry` (`fuel` = remaining
attempts, so the loop guard `attempt < retries` is `fuel > 0`),
faithfully including its control flow: the 4xx `throw` sits inside the
`try`, so the surrounding `catch` swallows it (and every other
failure) unless this is the last attempt, after which the backoff
sleep runs and the next attempt fetches again. -/
def retryGo (responses : Nat → FetchResult) (retries : Nat) :
    Nat → Nat → List Nat → RetryOutcome
  | 0, _, delays =>
    { ok := false, error := some "All retry attempts failed", delays := delays }
  | fuel + 1, attempt, delays =>
    match responses attempt with
    | FetchResult.resp s =>
      if 200 ≤ s ∧ s < 300 then
        { ok := true, error := none, delays := delays }
      else if 400 ≤ s ∧ s < 500 then
        -- The `throw new Error(...)` for a 4xx is caught by the
        -- `catch` block; it propagates only on the last attempt.
        if attempt = retries - 1 then
          { ok := false, error := some ("HTTP " ++ toString s), delays := delays }
        else
          retryGo responses retries fuel (attempt + 1)
            (delays ++ [backoffDelays.getD attempt 0])
      else if attempt = retries - 1 then
        { ok := false, error := some ("HTTP " ++ toString s), delays := delays }
      else
        retryGo responses retries fuel (attempt + 1)
          (delays ++ [backoffDelays.getD attempt 0])
    | FetchResult.netErr =>
      if attempt = retries - 1 then
        { ok := false, error := some "network error", delays := delays }
      else
        retryGo responses retries fuel (attempt + 1)
          (delays ++ [backoffDelays.getD attempt 0])

/-- `fetchWithRetry` with its default `retries = 3`. -/
def fetchWithRetry (responses : Nat → FetchResult) : RetryOutcome :=
  retryGo responses 3 3 0 []

/-! ## Import (`importEventToCalendar` / `markEventAsImported`)

Database state is passed explicitly: the `extracted_events` and
`calendar_events` table contents.  The success of the single
`calendar_events` insert a run performs is an explicit boolean oracle,
so that the error path can be stated. -/

/-- A row of `extracted_events`. -/
structure ExtractedRow where
  id : String
  user_id : String
  title : String
  description : Option String := none
  event_date : String
  start_time : Option String := none
  end_time : Option String := none
  location : Option String := none
  category : String
  priority : String
  is_imported : Bool := false
  metadata : EEMeta
deriving Repr, DecidableEq

/-- A row of `calendar_events` as written by the import operation. -/
structure CalendarRow where
  user_id : String
  title : String
  description : Option String := none
  event_date : String
  start_time : Option String := none
  end_time : Option String := none
  location : Option String := none
  category : String
  priority : String
  source : String
  source_id : Option String := none
  is_completed : Bool
deriving Repr, DecidableEq

/-- The two tables the import operation touches. -/
structure DB where
  extracted : List ExtractedRow
  calendar : List CalendarRow
deriving Repr, DecidableEq

/-- Which insert branch of `importEventToCalendar` ran. -/
inductive ImportBranch where
  | expandedRange
  | singleEvent
deriving Repr, DecidableEq

/-- Result of `importEventToCalendar`: the database afterwards, the
branch taken (if any), how many times `markEventAsImported` was
invoked, and the thrown error message (if any). -/
structure ImportResult where
  db : DB
  branch : Option ImportBranch := none
  markCalls : Nat := 0
  error : Option String := none
deriving Repr, DecidableEq

/-- `markEventAsImported`: set `is_imported = true` on the rows whose
`id` matches. -/
def markEventAsImported (db : DB) (eventId : String) : DB :=
  { db with
    extracted :=
      db.extracted.map
        (fun r => if r.id = eventId then { r with is_imported := true } else r) }

/-- The `.select('*').eq('id', eventId).single()` fetch: exactly one
matching row, else an error. -/
def fetchSingleExtracted (db : DB) (eventId : String) : Option ExtractedRow :=
  match db.extracted.filter (fun r => r.id = eventId) with
  | [row] => some row
  | _ => none

/-- A calendar row built by the import operation from the staged row
and an event date (shared by both branches, whose literal objects in
the source coincide except for the expanded title/description). -/
def calRowOf (row : ExtractedRow) (eventId title : String)
    (description : Option String) (eventDate : String) : CalendarRow :=
  { user_id := row.user_id
    title := title
    description := description
    event_date := eventDate
    start_time := row.start_time
    end_time := row.end_time
    location := row.location
    category := row.category
    priority := row.priority
    source := "extracted"
    source_id := some eventId
    is_completed := false }

/-- `importEventToCalendar`: fetch the staged row; if its metadata has
a truthy `is_range_with_day`, `normalized_date`, `normalized_end_date`
and `day_of_week`, expand the range and bulk-insert one calendar row
per occurrence, else insert the row itself; on insert success mark the
staged row imported.  `insertOk` is the success of the
`calendar_events` insert. -/
def importEventToCalendar (db : DB) (eventId : String) (insertOk : Bool) : ImportResult :=
  match fetchSingleExtracted db eventId with
  | none => { db := db, error := some "Failed to fetch extracted event" }
  | some row =>
    let meta := row.metadata
    if meta.is_range_with_day && strTruthy meta.normalized_date &&
        strTruthy meta.normalized_end_date && strTruthy meta.day_of_week then
      let expandedEvents :=
        expandRangeWithDays row.title row.description
          (meta.normalized_date.getD "") (meta.normalized_end_date.getD "")
          (meta.day_of_week.getD "")
      let eventsToInsert :=
        expandedEvents.map
          (fun ev => calRowOf row eventId ev.title ev.description ev.event_date)
      if insertOk then
        { db :=
            markEventAsImported
              { db with calendar := db.calendar ++ eventsToInsert } eventId
          branch := some ImportBranch.expandedRange
          markCalls := 1 }
      else
        { db := db
          branch := some ImportBranch.expandedRange
          error := some "Failed to import expanded events to calendar" }
    else
      if insertOk then
        { db :=
            markEventAsImported
              { db with
                calendar :=
                  db.calendar ++
                    [calRowOf row eventId row.title row.description row.event_date] }
              eventId
          branch := some ImportBranch.singleEvent
          markCalls := 1 }
      else
        { db := db
          branch := some ImportBranch.singleEvent
          error := some "Failed to import event to calendar" }

/-! ## Candidate promotion

Modelled from the spec: the promotion operation for recurring
candidates (`promote(candidateId)`, §4.6/§6 of the spec) is not among
the source files; only the `recurring_candidates` / `event_series`
schema is.  Per the spec's words, promotion creates exactly one
EventSeries from the candidate's normalized title / time / location /
suggested rule / occurrence list and flips the candidate's status to
`accepted`, and promoting an already-accepted candidate must not
create a duplicate series for the same cluster key. -/

/-- `status` of a `recurring_candidates` row. -/
inductive CandStatus where
  | pending
  | accepted
  | rejected
deriving Repr, DecidableEq

/-- A `recurring_candidates` row (the fields promotion reads). -/
structure RecurringCandidate where
  id : String
  cluster_key : String
  normalized_title : String
  suggested_rule : String
  occurrence_dates : List String
  start_time : Option String := none
  end_time : Option String := none
  location : Option String := none
  status : CandStatus := CandStatus.pending
deriving Repr, DecidableEq

/-- An `event_series` row as created by promotion. -/
structure EventSeries where
  title : String
  normalized_title : String
  start_time : Option String := none
  end_time : Option String := none
  location : Option String := none
  recurrence_rule : String
  occurrence_dates : List String
  source : String
deriving Repr, DecidableEq

/-- The candidate and series tables. -/
structure SeriesStore where
  candidates : List RecurringCandidate
  series : List EventSeries
deriving Repr, DecidableEq

/-- Modelled from the spec: the EventSeries built from a candidate's
normalized title/time/location/suggested-rule/occurrence list. -/
def seriesOfCandidate (c : RecurringCandidate) : EventSeries :=
  { title := c.normalized_title
    normalized_title := c.normalized_title
    start_time := c.start_time
    end_time := c.end_time
    location := c.location
    recurrence_rule := c.suggested_rule
    occurrence_dates := c.occurrence_dates
    source := "detected" }

/-- Modelled from the spec: `promote(candidateId)` — create one
EventSeries from the candidate and mark it `accepted`; a candidate
that is already `accepted` (or absent) is left alone, so a second
invocation does not create a duplicate series. -/
def promoteCandidate (st : SeriesStore) (cid : String) : SeriesStore :=
  match st.candidates.filter (fun c => c.id = cid) with
  | [c] =>
    if c.status = CandStatus.accepted then st
    else
      { candidates :=
          st.candidates.map
            (fun x => if x.id = cid then { x with status := CandStatus.accepted } else x)
        series := st.series ++ [seriesOfCandidate c] }
  | _ => st

/-! ## Concrete fixtures (used by witnesses of general theorems) -/

/-- A deferred-range metadata bag: 2025-11-03 to 2025-11-17 on
Mondays. -/
def sampleDeferredMeta : EEMeta :=
  { date_text := "r"
    normalized_date := some "2025-11-03"
    normalized_end_date := some "2025-11-17"
    day_of_week := some "Monday"
    is_range_with_day := true }

/-- A staged deferred-range row. -/
def sampleDeferredRow : ExtractedRow :=
  { id := "e1"
    user_id := "u"
    title := "A"
    event_date := "2025-11-03"
    category := "other"
    priority := "medium"
    metadata := sampleDeferredMeta }

/-- A one-row database holding the deferred-range row. -/
def sampleDB : DB :=
  { extracted := [sampleDeferredRow], calendar := [] }

/-- The shape of `cleanOCRText`'s output (proof invariant for the
idempotence theorem): no control characters, no characters the
punctuation normalization would rewrite, every whitespace character is
a single ASCII space with no two adjacent, no un-spaced lower→upper or
letter↔digit boundary, and no leading or trailing whitespace. -/
def CleanInv (l : List Char) : Prop :=
  (∀ c ∈ l, isCtl c = false) ∧
  (∀ c ∈ l, charNorm c = c) ∧
  (∀ c ∈ l, isJsWs c = true → c = ' ') ∧
  List.Chain' (fun a b => ¬(isJsWs a = true ∧ isJsWs b = true)) l ∧
  List.Chain' (fun a b => luP a b = false) l ∧
  List.Chain' (fun a b => dlP a b = false) l ∧
  List.Chain' (fun a b => ldP a b = false) l ∧
  (∀ c, l.head? = some c → isJsWs c = false) ∧
  (∀ c, l.getLast? = some c → isJsWs c = false)

/-! ## Helper lemmas: the expansion walk -/

/-- Membership in the fuel-indexed walk: exactly the day counts in
`[cur, cur + fuel)` whose weekday is in the set. -/
theorem mem_expandDaysGo (daysOfWeek : List Nat) (fuel : Nat) (cur d : Int) :
    d ∈ expandDaysGo daysOfWeek fuel cur ↔
      cur ≤ d ∧ d < cur + fuel ∧ jsGetDay d ∈ daysOfWeek := by
  induction fuel generalizing cur with
  | zero =>
    simp only [expandDaysGo, List.not_mem_nil, false_iff]
    omega
  | succ n ih =>
    simp only [expandDaysGo, List.mem_append, ih]
    by_cases hc : jsGetDay cur ∈ daysOfWeek
    · simp only [hc, if_true, List.mem_singleton]
      constructor
      · rintro (rfl | ⟨h1, h2, h3⟩)
        · exact ⟨le_refl _, by omega, hc⟩
        · exact ⟨by omega, by omega, h3⟩
      · rintro ⟨h1, h2, h3⟩
        by_cases hd : d = cur
        · exact Or.inl hd
        · exact Or.inr ⟨by omega, by omega, h3⟩
    · simp only [hc, if_false, List.not_mem_nil, false_or]
      constructor
      · rintro ⟨h1, h2, h3⟩
        exact ⟨by omega, by omega, h3⟩
      · rintro ⟨h1, h2, h3⟩
        have hd : d ≠ cur := by
          rintro rfl
          exact hc h3
        exact ⟨by omega, by omega, h3⟩

/-- Membership in the range walk: exactly the day counts in
`[cur, endD]` (both endpoints inclusive) whose weekday is in the set. -/
theorem mem_expandDays (daysOfWeek : List Nat) (endD cur d : Int) :
    d ∈ expandDays daysOfWeek endD cur ↔
      cur ≤ d ∧ d ≤ endD ∧ jsGetDay d ∈ daysOfWeek := by
  rw [expandDays, mem_expandDaysGo]
  constructor
  · rintro ⟨h1, h2, h3⟩
    exact ⟨h1, by omega, h3⟩
  · rintro ⟨h1, h2, h3⟩
    exact ⟨h1, by omega, h3⟩

/-- Every element of the walk is at least the starting day. -/
theorem expandDaysGo_lower (daysOfWeek : List Nat) (fuel : Nat) (cur d : Int)
    (h : d ∈ expandDaysGo daysOfWeek fuel cur) : cur ≤ d :=
  ((mem_expandDaysGo daysOfWeek fuel cur d).1 h).1

/-- The walk emits its dates in strictly ascending order. -/
theorem sorted_expandDaysGo (daysOfWeek : List Nat) (fuel : Nat) (cur : Int) :
    List.Sorted (· < ·) (expandDaysGo daysOfWeek fuel cur) := by
  induction fuel generalizing cur with
  | zero => simp [expandDaysGo]
  | succ n ih =>
    rw [expandDaysGo]
    refine List.pairwise_append.2 ⟨?_, ih (cur + 1), ?_⟩
    · by_cases hc : jsGetDay cur ∈ daysOfWeek <;> simp [hc]
    · intro a ha b hb
      have ha' : a = cur := by
        by_cases hc : jsGetDay cur ∈ daysOfWeek <;> simp [hc] at ha
        exact ha
      have hb' : cur + 1 ≤ b := expandDaysGo_lower _ _ _ _ hb
      omega

/-- The range walk emits its dates in strictly ascending order. -/
theorem sorted_expandDays (daysOfWeek : List Nat) (endD cur : Int) :
    List.Sorted (· < ·) (expandDays daysOfWeek endD cur) :=
  sorted_expandDaysGo daysOfWeek _ cur

/-- An empty weekday set yields an empty walk. -/
theorem expandDaysGo_nil (fuel : Nat) (cur : Int) :
    expandDaysGo [] fuel cur = [] := by
  induction fuel generalizing cur with
  | zero => rfl
  | succ n ih => simp [expandDaysGo, ih]

/-! ## Claim C1 -/

/-- C1: the claim that a 4xx response is non-retryable and fails the
batch immediately with zero backoff delays is FALSE of the code: the
4xx `throw` is swallowed by the `catch`, so a constant 404 is fetched
on all 3 attempts and fails only after backoff delays of 500ms and
1000ms.  The 5xx half of the claim does hold: 500-class failures on
attempts 1 and 2 followed by success on attempt 3 succeed with exactly
the two backoff delays. -/
theorem fetchWithRetry_retries_4xx :
    fetchWithRetry (fun _ => FetchResult.resp 404) =
      { ok := false, error := some "HTTP 404", delays := [500, 1000] } ∧
    fetchWithRetry (fun i => if i < 2 then FetchResult.resp 500 else FetchResult.resp 200) =
      { ok := true, error := none, delays := [500, 1000] } ∧
    fetchWithRetry (fun _ => FetchResult.resp 500) =
      { ok := false, error := some "HTTP 500", delays := [500, 1000] } := by
  refine ⟨by decide, by decide, by decide⟩

/-! ## Claim C7 -/

/-- C7: the claim that normalization followed by line splitting yields
one record per non-blank input line is FALSE of the code: the
`\s+ → ' '` replacement in `cleanOCRText` collapses line breaks, so a
two-line input yields a single `{ line_number := 1, ... }` record
containing both lines, not two records. -/
theorem splitDocumentIntoLines_collapses_lines :
    splitDocumentIntoLines (cleanOCRText "Meeting Jan 5\nExam Feb 6") =
      [{ line_number := 1, text := "Meeting Jan 5 Exam Feb 6" }] ∧
    (splitDocumentIntoLines (cleanOCRText "Meeting Jan 5\nExam Feb 6")).length ≠ 2 := by
  refine ⟨by decide, by decide⟩

/-! ## Claim C2 -/

/-- C2: the Recurrence Expander normalizes the comma-separated weekday
tokens through `dayMap` (full names and abbreviations, including
`tues` and `thurs`), walks every day of the inclusive date range and
emits exactly the dates whose weekday is in the set, in ascending
order; an empty or wholly unrecognized weekday set yields the empty
sequence; `expand(2025-11-03, 2025-11-03, {Monday})` is exactly that
Monday, and `expand(2025-11-01, 2025-11-30, {Saturday, Sunday})` is
exactly the weekend dates of November 2025 in ascending order. -/
theorem expandRangeWithDays_spec :
    (∀ (daysOfWeek : List Nat) (endD cur d : Int),
        d ∈ expandDays daysOfWeek endD cur ↔
          cur ≤ d ∧ d ≤ endD ∧ jsGetDay d ∈ daysOfWeek) ∧
    (∀ (daysOfWeek : List Nat) (endD cur : Int),
        List.Sorted (· < ·) (expandDays daysOfWeek endD cur)) ∧
    (∀ (title : String) (desc : Option String) (a b dow : String) (s e : Int),
        parseISODate a = some s → parseISODate b = some e →
        expandRangeWithDays title desc a b dow =
          (expandDays (parseDaysOfWeek dow) e s).map
            (fun z => { title := title, description := desc, event_date := isoOfDay z })) ∧
    (∀ (title : String) (desc : Option String) (a b dow : String),
        parseDaysOfWeek dow = [] → expandRangeWithDays title desc a b dow = []) ∧
    parseDaysOfWeek "Monday" = [1] ∧
    parseDaysOfWeek " Tues , THURS " = [2, 4] ∧
    parseDaysOfWeek "Friyay" = [] ∧
    parseDaysOfWeek "" = [] ∧
    expandRangeWithDays "T" none "2025-11-03" "2025-11-03" "Monday" =
      [{ title := "T", description := none, event_date := "2025-11-03" }] ∧
    (expandRangeWithDays "W" none "2025-11-01" "2025-11-30" "Saturday,Sunday").map
        (fun r => r.event_date) =
      ["2025-11-01", "2025-11-02", "2025-11-08", "2025-11-09", "2025-11-15",
       "2025-11-16", "2025-11-22", "2025-11-23", "2025-11-29", "2025-11-30"] := by
  refine ⟨mem_expandDays, sorted_expandDays, ?_, ?_, by decide, by decide, by decide,
    by decide, by decide, by decide⟩
  · intro title desc a b dow s e ha hb
    rw [expandRangeWithDays, ha, hb]
    by_cases h : parseDaysOfWeek dow = []
    · rw [h]
      simp [expandDays, expandDaysGo_nil]
    · simp [h]
  · intro title desc a b dow h
    cases ha : parseISODate a <;> cases hb : parseISODate b <;>
      simp [expandRangeWithDays, ha, hb, h]

/-- Witness for C2 at concrete inputs (2025-11-03 has day count 20395,
2025-11-17 has 20409). -/
theorem expandRangeWithDays_spec_witness :
    (20395 ∈ expandDays [1] 20409 20395 ↔
      (20395 : Int) ≤ 20395 ∧ (20395 : Int) ≤ 20409 ∧ jsGetDay 20395 ∈ [1]) ∧
    expandRangeWithDays "T" none "2025-11-03" "2025-11-17" "Monday" =
      (expandDays (parseDaysOfWeek "Monday") 20409 20395).map
        (fun z => { title := "T", description := none, event_date := isoOfDay z }) :=
  ⟨expandRangeWithDays_spec.1 [1] 20409 20395 20395,
   expandRangeWithDays_spec.2.2.1 "T" none "2025-11-03" "2025-11-17" "Monday" 20395 20409
     (by decide) (by decide)⟩

/-! ## Claim C6 -/

/-- C6: the Materializer maps one line-extraction result as follows
(the cases being the source's branch order, so the deferred-range case
takes precedence): a deferred range result (truthy `is_range_with_day`,
start, end and weekday) yields one event dated at the start date with
confidence 85 and metadata `is_range_with_day = true`,
`is_expanded_from_range = false`; otherwise a result with a normalized
date yields one event with that date and confidence 90; a result with
only raw date text yields one event carrying the raw text verbatim with
confidence 70; a result with neither yields no event. -/
theorem convertLineEvents_cases (e : LineExtraction) :
    ((e.is_range_with_day && strTruthy e.normalized_date &&
        strTruthy e.normalized_end_date && strTruthy e.day_of_week) = true →
      (convertLineEventsToExtractedEvents [e]).map
          (fun x => (x.event_date, x.confidence, x.metadata.is_range_with_day,
            x.metadata.is_expanded_from_range)) =
        [(e.normalized_date.getD "", 85, true, false)]) ∧
    (strTruthy e.normalized_date = true →
      (e.is_range_with_day && strTruthy e.normalized_date &&
        strTruthy e.normalized_end_date && strTruthy e.day_of_week) = false →
      (convertLineEventsToExtractedEvents [e]).map
          (fun x => (x.event_date, x.confidence, x.metadata.is_range_with_day)) =
        [(e.normalized_date.getD "", 90, false)]) ∧
    (strTruthy e.normalized_date = false → e.date_text.data.isEmpty = false →
      (convertLineEventsToExtractedEvents [e]).map
          (fun x => (x.event_date, x.confidence, x.metadata.is_range_with_day)) =
        [(e.date_text, 70, false)]) ∧
    (strTruthy e.normalized_date = false → e.date_text.data.isEmpty = true →
      convertLineEventsToExtractedEvents [e] = []) := by
  refine ⟨?_, ?_, ?_, ?_⟩
  · intro h
    simp only [Bool.and_eq_true] at h
    obtain ⟨⟨⟨hr, hnd⟩, hne⟩, hdw⟩ := h
    simp [convertLineEventsToExtractedEvents, convertOne, hr, hnd, hne, hdw]
  · intro hnd h
    have h3 : e.is_range_with_day = false ∨ strTruthy e.normalized_end_date = false ∨
        strTruthy e.day_of_week = false := by
      cases hr : e.is_range_with_day <;> cases hne : strTruthy e.normalized_end_date <;>
        cases hdw : strTruthy e.day_of_week <;> simp_all
    rcases h3 with h3 | h3 | h3 <;>
      simp [convertLineEventsToExtractedEvents, convertOne, hnd, h3]
  · intro hnd hdt
    have h : (e.is_range_with_day && strTruthy e.normalized_date &&
        strTruthy e.normalized_end_date && strTruthy e.day_of_week) = false := by
      simp [hnd]
    simp [convertLineEventsToExtractedEvents, convertOne, h, hnd, hdt]
  · intro hnd hdt
    simp [convertLineEventsToExtractedEvents, convertOne, hnd, hdt]

/-- Witness for C6: all four cases at concrete line-extraction
results. -/
theorem convertLineEvents_cases_witness :
    ((convertLineEventsToExtractedEvents
        [{ line_number := 1, event := "A", date_text := "Nov 1 to Dec 15",
           normalized_date := some "2025-11-01", normalized_end_date := some "2025-12-15",
           day_of_week := some "Monday", is_range_with_day := true }]).map
        (fun x => (x.event_date, x.confidence, x.metadata.is_range_with_day,
          x.metadata.is_expanded_from_range)) =
      [((some "2025-11-01").getD "", 85, true, false)]) ∧
    ((convertLineEventsToExtractedEvents
        [{ line_number := 2, event := "B", date_text := "Nov 14, 2025",
           normalized_date := some "2025-11-14" }]).map
        (fun x => (x.event_date, x.confidence, x.metadata.is_range_with_day)) =
      [((some "2025-11-14").getD "", 90, false)]) ∧
    ((convertLineEventsToExtractedEvents
        [{ line_number := 3, event := "C", date_text := "next friday" }]).map
        (fun x => (x.event_date, x.confidence, x.metadata.is_range_with_day)) =
      [("next friday", 70, false)]) ∧
    convertLineEventsToExtractedEvents
        [{ line_number := 4, event := "D", date_text := "" }] = [] :=
  ⟨(convertLineEvents_cases _).1 (by decide),
   (convertLineEvents_cases _).2.1 (by decide) (by decide),
   (convertLineEvents_cases _).2.2.1 (by decide) (by decide),
   (convertLineEvents_cases _).2.2.2 (by decide) (by decide)⟩

/-! ## Claim C4 -/

/-- C4: every ExtractedEvent the materializer produces with
`is_range_with_day = true` carries a truthy start date, end date and
weekday token set in its metadata; and importing a staged row that is
range-flagged and carries those fields never takes the single-event
(unexpanded) insert branch. -/
theorem range_flagged_never_unexpanded :
    (∀ (les : List LineExtraction) (ev : ExtractedEvent),
        ev ∈ convertLineEventsToExtractedEvents les →
        ev.metadata.is_range_with_day = true →
        strTruthy ev.metadata.normalized_date = true ∧
        strTruthy ev.metadata.normalized_end_date = true ∧
        strTruthy ev.metadata.day_of_week = true) ∧
    (∀ (db : DB) (eventId : String) (insertOk : Bool) (row : ExtractedRow),
        fetchSingleExtracted db eventId = some row →
        row.metadata.is_range_with_day = true →
        strTruthy row.metadata.normalized_date = true →
        strTruthy row.metadata.normalized_end_date = true →
        strTruthy row.metadata.day_of_week = true →
        (importEventToCalendar db eventId insertOk).branch ≠
          some ImportBranch.singleEvent) := by
  constructor
  · intro les ev hmem hflag
    rw [convertLineEventsToExtractedEvents, List.mem_flatten] at hmem
    obtain ⟨l, hl, hev⟩ := hmem
    rw [List.mem_map] at hl
    obtain ⟨le, _, rfl⟩ := hl
    rw [convertOne] at hev
    split at hev
    · exact absurd hev (List.not_mem_nil ev)
    · split at hev
      · rename_i hguard
        simp only [Bool.and_eq_true] at hguard
        obtain ⟨⟨⟨_, hnd⟩, hne⟩, hdw⟩ := hguard
        rw [List.mem_singleton] at hev
        subst hev
        exact ⟨hnd, hne, hdw⟩
      · rw [List.mem_singleton] at hev
        subst hev
        simp at hflag
  · intro db eventId insertOk row hfetch hflag h1 h2 h3
    simp only [importEventToCalendar, hfetch, hflag, h1, h2, h3, Bool.and_self,
      if_true]
    cases insertOk <;> simp

/-- Witness for C4 at a concrete deferred line extraction and a
concrete one-row database. -/
theorem range_flagged_never_unexpanded_witness :
    (∀ ev ∈ convertLineEventsToExtractedEvents
        [{ line_number := 1, event := "A", date_text := "r",
           normalized_date := some "2025-11-03", normalized_end_date := some "2025-11-17",
           day_of_week := some "Monday", is_range_with_day := true }],
        ev.metadata.is_range_with_day = true →
        strTruthy ev.metadata.normalized_date = true ∧
        strTruthy ev.metadata.normalized_end_date = true ∧
        strTruthy ev.metadata.day_of_week = true) ∧
    (importEventToCalendar sampleDB "e1" true).branch ≠ some ImportBranch.singleEvent :=
  ⟨fun ev hmem => range_flagged_never_unexpanded.1 _ ev hmem,
   range_flagged_never_unexpanded.2 sampleDB "e1" true sampleDeferredRow (by decide)
     (by decide) (by decide) (by decide) (by decide)⟩

/-! ## Claim C10 -/

/-- C10: when the `calendar_events` insert fails, `importEventToCalendar`
throws before `markEventAsImported` runs, in both the single-event and
the expanded-range branch: the operation reports an error, performs
zero `markEventAsImported` calls, and leaves the database — in
particular the staged row's `is_imported` flag — unchanged. -/
theorem import_atomic_on_insert_failure (db : DB) (eventId : String) :
    (importEventToCalendar db eventId false).db = db ∧
    (importEventToCalendar db eventId false).markCalls = 0 ∧
    (importEventToCalendar db eventId false).error.isSome = true := by
  cases hf : fetchSingleExtracted db eventId with
  | none => simp [importEventToCalendar, hf]
  | some row =>
    simp only [importEventToCalendar, hf]
    split <;> simp

/-! ## Claim C3 -/

/-- C3: importing a staged event whose metadata is a deferred range
with start 2025-11-03, end 2025-11-17 and weekday set {Monday}
succeeds, appends exactly three calendar rows dated 2025-11-03,
2025-11-10 and 2025-11-17 — each with `source = "extracted"`,
`source_id` the originating event's id, and the originating row's
title, times, location, category and priority — and invokes
`markEventAsImported` exactly once, leaving every row with that id
flagged imported. -/
theorem import_deferred_roundtrip (db : DB) (row : ExtractedRow)
    (hfetch : fetchSingleExtracted db row.id = some row)
    (h1 : row.metadata.is_range_with_day = true)
    (h2 : row.metadata.normalized_date = some "2025-11-03")
    (h3 : row.metadata.normalized_end_date = some "2025-11-17")
    (h4 : row.metadata.day_of_week = some "Monday") :
    (importEventToCalendar db row.id true).error = none ∧
    (importEventToCalendar db row.id true).db.calendar =
      db.calendar ++
        ["2025-11-03", "2025-11-10", "2025-11-17"].map
          (fun d =>
            { user_id := row.user_id, title := row.title,
              description := row.description, event_date := d,
              start_time := row.start_time, end_time := row.end_time,
              location := row.location, category := row.category,
              priority := row.priority, source := "extracted",
              source_id := some row.id, is_completed := false }) ∧
    (importEventToCalendar db row.id true).markCalls = 1 ∧
    (∀ r ∈ (importEventToCalendar db row.id true).db.extracted,
        r.id = row.id → r.is_imported = true) := by
  have hparse1 : parseISODate "2025-11-03" = some 20395 := by decide
  have hparse2 : parseISODate "2025-11-17" = some 20409 := by decide
  have hpd : parseDaysOfWeek "Monday" = [1] := by decide
  have hdays : expandDays [1] 20409 20395 = [20395, 20402, 20409] := by decide
  have hexp : expandRangeWithDays row.title row.description "2025-11-03" "2025-11-17"
      "Monday" =
      [{ title := row.title, description := row.description, event_date := "2025-11-03" },
       { title := row.title, description := row.description, event_date := "2025-11-10" },
       { title := row.title, description := row.description, event_date := "2025-11-17" }] := by
    rw [expandRangeWithDays, hparse1, hparse2]
    have hiso1 : isoOfDay 20395 = "2025-11-03" := by decide
    have hiso2 : isoOfDay 20402 = "2025-11-10" := by decide
    have hiso3 : isoOfDay 20409 = "2025-11-17" := by decide
    simp [hpd, hdays, hiso1, hiso2, hiso3]
  have ht1 : strTruthy (some "2025-11-03") = true := by decide
  have ht2 : strTruthy (some "2025-11-17") = true := by decide
  have ht3 : strTruthy (some "Monday") = true := by decide
  simp only [importEventToCalendar, hfetch, h1, h2, h3, h4, ht1, ht2, ht3,
    Bool.and_self, if_true, hexp, markEventAsImported, calRowOf]
  refine ⟨trivial, by simp [hexp], trivial, ?_⟩
  intro r hr hid
  rw [List.mem_map] at hr
  obtain ⟨r0, _, rfl⟩ := hr
  by_cases h : r0.id = row.id
  · rw [if_pos h]
  · rw [if_neg h] at hid
    exact absurd hid h

/-- Witness for C3: the round trip on the concrete one-row database. -/
theorem import_deferred_roundtrip_witness :
    (importEventToCalendar sampleDB sampleDeferredRow.id true).error = none ∧
    (importEventToCalendar sampleDB sampleDeferredRow.id true).db.calendar =
      sampleDB.calendar ++
        ["2025-11-03", "2025-11-10", "2025-11-17"].map
          (fun d =>
            { user_id := sampleDeferredRow.user_id, title := sampleDeferredRow.title,
              description := sampleDeferredRow.description, event_date := d,
              start_time := sampleDeferredRow.start_time,
              end_time := sampleDeferredRow.end_time,
              location := sampleDeferredRow.location,
              category := sampleDeferredRow.category,
              priority := sampleDeferredRow.priority, source := "extracted",
              source_id := some sampleDeferredRow.id, is_completed := false }) ∧
    (importEventToCalendar sampleDB sampleDeferredRow.id true).markCalls = 1 ∧
    (∀ r ∈ (importEventToCalendar sampleDB sampleDeferredRow.id true).db.extracted,
        r.id = sampleDeferredRow.id → r.is_imported = true) :=
  import_deferred_roundtrip sampleDB sampleDeferredRow (by decide) (by decide)
    (by decide) (by decide) (by decide)

/-! ## Claim C9 -/

/-- C9: promoting a pending RecurringCandidate appends exactly one
EventSeries built from the candidate's normalized
title/time/location/suggested-rule/occurrence list, flips the
candidate's status to `accepted`, and a second invocation of the
promotion is a no-op — no duplicate series is created for the same
cluster key.  (Modelled from the spec; the promotion code is not among
the source files, only its schema.) -/
theorem promoteCandidate_spec (st : SeriesStore) (cid : String) (c : RecurringCandidate)
    (hc : st.candidates.filter (fun x => x.id = cid) = [c])
    (hs : c.status ≠ CandStatus.accepted) :
    (promoteCandidate st cid).series = st.series ++ [seriesOfCandidate c] ∧
    ((promoteCandidate st cid).candidates.filter (fun x => x.id = cid)).map
        (fun x => x.status) = [CandStatus.accepted] ∧
    promoteCandidate (promoteCandidate st cid) cid = promoteCandidate st cid := by
  have hfilter :
      (promoteCandidate st cid).candidates.filter (fun x => x.id = cid) =
        [{ c with status := CandStatus.accepted }] := by
    rw [promoteCandidate, hc]
    dsimp only
    rw [if_neg hs]
    have hmapf :
        (st.candidates.map
            (fun x => if x.id = cid then { x with status := CandStatus.accepted } else x)).filter
            (fun x => x.id = cid) =
          (st.candidates.filter
              (fun x =>
                (if x.id = cid then { x with status := CandStatus.accepted } else x).id =
                  cid)).map
            (fun x => if x.id = cid then { x with status := CandStatus.accepted } else x) := by
      rw [List.filter_map]
      rfl
    have hsame :
        (st.candidates.filter
            (fun x =>
              (if x.id = cid then { x with status := CandStatus.accepted } else x).id = cid)) =
          st.candidates.filter (fun x => x.id = cid) := by
      apply List.filter_congr
      intro x _
      by_cases hx : x.id = cid
      · simp [hx]
      · simp [hx]
    rw [hmapf, hsame, hc]
    have : c.id = cid := by
      have := List.mem_filter.1 (hc ▸ List.mem_singleton_self c)
      simpa using this.2
    simp [this]
  refine ⟨?_, ?_, ?_⟩
  · rw [promoteCandidate, hc]
    dsimp only
    rw [if_neg hs]
  · rw [hfilter]
    rfl
  · conv_lhs => rw [promoteCandidate, hfilter]
    simp

/-- Witness for C9 at a concrete pending candidate. -/
theorem promoteCandidate_spec_witness :
    (promoteCandidate
        { candidates :=
            [{ id := "c1", cluster_key := "k", normalized_title := "standup",
               suggested_rule := "FREQ=WEEKLY", occurrence_dates := ["2025-11-03"] }],
          series := [] } "c1").series =
      [] ++ [seriesOfCandidate
        { id := "c1", cluster_key := "k", normalized_title := "standup",
          suggested_rule := "FREQ=WEEKLY", occurrence_dates := ["2025-11-03"] }] ∧
    ((promoteCandidate
        { candidates :=
            [{ id := "c1", cluster_key := "k", normalized_title := "standup",
               suggested_rule := "FREQ=WEEKLY", occurrence_dates := ["2025-11-03"] }],
          series := [] } "c1").candidates.filter (fun x => x.id = "c1")).map
        (fun x => x.status) = [CandStatus.accepted] ∧
    promoteCandidate
        (promoteCandidate
          { candidates :=
              [{ id := "c1", cluster_key := "k", normalized_title := "standup",
                 suggested_rule := "FREQ=WEEKLY", occurrence_dates := ["2025-11-03"] }],
            series := [] } "c1") "c1" =
      promoteCandidate
        { candidates :=
            [{ id := "c1", cluster_key := "k", normalized_title := "standup",
               suggested_rule := "FREQ=WEEKLY", occurrence_dates := ["2025-11-03"] }],
          series := [] } "c1" :=
  promoteCandidate_spec _ "c1" _ (by decide) (by decide)

/-! ## Helper lemmas: batch slicing and the batch driver -/

/-- Slicing with no lines yields no batches (any fuel). -/
theorem mkBatchesGo_nil (fuel : Nat) : mkBatchesGo fuel [] = [] := by
  cases fuel <;> rfl

/-- Concatenating the slices gives back the lines. -/
theorem mkBatchesGo_flatten (fuel : Nat) (lines : List LineContext)
    (h : lines.length ≤ fuel) : (mkBatchesGo fuel lines).flatten = lines := by
  induction fuel generalizing lines with
  | zero =>
    cases lines with
    | nil => rfl
    | cons c rest => simp at h
  | succ n ih =>
    cases lines with
    | nil => rfl
    | cons c rest =>
      rw [mkBatchesGo, List.flatten_cons, ih]
      · exact List.take_append_drop 10 (c :: rest)
      · simp only [List.length_drop, List.length_cons] at h ⊢
        omega

/-- Every slice is non-empty and holds at most 10 lines. -/
theorem mkBatchesGo_mem (fuel : Nat) (lines : List LineContext) (b : List LineContext)
    (hb : b ∈ mkBatchesGo fuel lines) : b ≠ [] ∧ b.length ≤ 10 := by
  induction fuel generalizing lines with
  | zero => cases lines <;> simp [mkBatchesGo] at hb
  | succ n ih =>
    cases lines with
    | nil => simp [mkBatchesGo] at hb
    | cons c rest =>
      rw [mkBatchesGo, List.mem_cons] at hb
      rcases hb with rfl | hb
      · refine ⟨by simp, ?_⟩
        simp only [List.length_take]
        omega
      · exact ih _ hb

/-- Every slice except possibly the last holds exactly 10 lines. -/
theorem mkBatchesGo_full (fuel : Nat) (lines : List LineContext) (i : Nat)
    (h : i + 1 < (mkBatchesGo fuel lines).length) :
    ((mkBatchesGo fuel lines).getD i []).length = 10 := by
  induction fuel generalizing lines i with
  | zero => cases lines <;> simp [mkBatchesGo] at h
  | succ n ih =>
    cases lines with
    | nil => simp [mkBatchesGo] at h
    | cons c rest =>
      rw [mkBatchesGo] at h ⊢
      cases i with
      | zero =>
        have htail : mkBatchesGo n ((c :: rest).drop 10) ≠ [] := by
          intro he
          rw [List.length_cons, he] at h
          simp at h
        have hdrop : (c :: rest).drop 10 ≠ [] := by
          intro hd
          exact htail (by rw [hd, mkBatchesGo_nil])
        have hlen : 10 < (c :: rest).length := by
          by_contra hle
          push_neg at hle
          exact hdrop (List.drop_eq_nil_iff.2 hle)
        rw [List.getD_cons_zero]
        simp only [List.length_take]
        omega
      | succ j =>
        rw [List.getD_cons_succ]
        refine ih _ j ?_
        simpa using h

/-- The batch driver, unrolled over the indexed batch list: the events
accumulator gathers each successful call's results in batch order; the
side-effect trace has, for each batch in order, its insert (when the
call succeeded with a non-empty result list) followed by a 400ms sleep
unless it is the last batch.  A failed call contributes nothing and the
remaining batches are unaffected. -/
theorem runBatches_eq (call : Nat → List LineContext → Option (List LineExtraction))
    (bs : List (List LineContext)) (i : Nat) :
    runBatches call bs i =
      (((bs.enumFrom i).map (fun p => (call p.1 p.2).getD [])).flatten,
       ((bs.enumFrom i).map
          (fun p =>
            (match call p.1 p.2 with
             | some evs =>
               if evs.isEmpty then []
               else [BatchOp.insert (convertLineEventsToExtractedEvents evs)]
             | none => []) ++
            (if p.1 + 1 = i + bs.length then [] else [BatchOp.delay 400]))).flatten) := by
  induction bs generalizing i with
  | nil => rfl
  | cons b rest ih =>
    rw [runBatches, ih (i + 1), List.enumFrom_cons]
    have hidx : i + (b :: rest).length = i + 1 + rest.length := by
      simp only [List.length_cons]
      omega
    rw [hidx]
    simp only [List.map_cons, List.flatten_cons]
    have hcond : (i + 1 = i + 1 + rest.length) ↔ rest = [] := by
      constructor
      · intro h
        have : rest.length = 0 := by omega
        exact List.length_eq_zero.1 this
      · intro h
        subst h
        simp
    refine congrArg₂ Prod.mk ?_ ?_
    · cases hc : call i b <;> simp [hc]
    · cases hc : call i b <;>
        simp [hc, hcond, List.isEmpty_iff, List.append_assoc]

/-- The delays in the driver's trace are exactly one 400ms sleep per
gap between consecutive batches. -/
theorem runBatches_delays (call : Nat → List LineContext → Option (List LineExtraction))
    (bs : List (List LineContext)) (i : Nat) :
    (runBatches call bs i).2.filter
        (fun op => match op with | BatchOp.delay _ => true | _ => false) =
      List.replicate (bs.length - 1) (BatchOp.delay 400) := by
  induction bs generalizing i with
  | nil => rfl
  | cons b rest ih =>
    rw [runBatches]
    simp only [List.filter_append]
    have hstep :
        (match call i b with
            | some evs =>
              (evs,
                if evs.isEmpty then []
                else [BatchOp.insert (convertLineEventsToExtractedEvents evs)])
            | none => ([], [])).2.filter
            (fun op => match op with | BatchOp.delay _ => true | _ => false) = [] := by
      cases hc : call i b with
      | none => rfl
      | some evs => by_cases he : evs.isEmpty <;> simp [he]
    rw [hstep, ih (i + 1)]
    cases rest with
    | nil => rfl
    | cons r rs => simp [List.replicate_succ]

/-! ## Claim C5 -/

/-- C5: the extraction driver slices the candidate lines into
consecutive batches of exactly 10 (the final batch possibly smaller
but never empty), and processes them strictly sequentially in order:
the side-effect trace is, batch by batch, the batch's
`extracted_events` insert of its converted rows (when its call
succeeded with a non-empty result) followed by a 400ms sleep between
consecutive batches; a batch whose call fails contributes zero results
and no insert but does not disturb any other batch's contribution, and
the delays are exactly one 400ms sleep per gap between consecutive
batches. -/
theorem extractEventsFromLines_spec :
    (∀ lines : List LineContext, (mkBatches lines).flatten = lines) ∧
    (∀ (lines : List LineContext) (b : List LineContext),
        b ∈ mkBatches lines → b ≠ [] ∧ b.length ≤ 10) ∧
    (∀ (lines : List LineContext) (i : Nat),
        i + 1 < (mkBatches lines).length →
        ((mkBatches lines).getD i []).length = 10) ∧
    (∀ (call : Nat → List LineContext → Option (List LineExtraction))
        (lines : List LineContext),
        extractEventsFromLines call lines =
          (((mkBatches lines).enum.map (fun p => (call p.1 p.2).getD [])).flatten,
           ((mkBatches lines).enum.map
              (fun p =>
                (match call p.1 p.2 with
                 | some evs =>
                   if evs.isEmpty then []
                   else [BatchOp.insert (convertLineEventsToExtractedEvents evs)]
                 | none => []) ++
                (if p.1 + 1 = (mkBatches lines).length then []
                 else [BatchOp.delay 400]))).flatten)) ∧
    (∀ (call : Nat → List LineContext → Option (List LineExtraction))
        (lines : List LineContext),
        (extractEventsFromLines call lines).2.filter
            (fun op => match op with | BatchOp.delay _ => true | _ => false) =
          List.replicate ((mkBatches lines).length - 1) (BatchOp.delay 400)) := by
  refine ⟨?_, ?_, ?_, ?_, ?_⟩
  · intro lines
    exact mkBatchesGo_flatten lines.length lines (le_refl _)
  · intro lines b hb
    exact mkBatchesGo_mem lines.length lines b hb
  · intro lines i h
    exact mkBatchesGo_full lines.length lines i h
  · intro call lines
    rw [extractEventsFromLines, runBatches_eq, List.enum_eq_enumFrom]
    simp
  · intro call lines
    exact runBatches_delays call (mkBatches lines) 0

/-- Witness for C5 on 12 concrete candidate lines (two batches) with
an oracle whose every call fails. -/
theorem extractEventsFromLines_spec_witness :
    ((mkBatches ((List.range 12).map
        (fun k => { line_number := k + 1, text := "x" }))).getD 0 []).length = 10 ∧
    (∀ b ∈ mkBatches ((List.range 12).map
        (fun k => { line_number := k + 1, text := "x" })), b ≠ [] ∧ b.length ≤ 10) ∧
    extractEventsFromLines (fun _ _ => none)
        ((List.range 12).map (fun k => { line_number := k + 1, text := "x" })) =
      ([], [BatchOp.delay 400]) :=
  ⟨extractEventsFromLines_spec.2.2.1 _ 0 (by decide),
   fun b hb => extractEventsFromLines_spec.2.1 _ b hb,
   by
     rw [extractEventsFromLines_spec.2.2.2.1 (fun _ _ => none)
       ((List.range 12).map (fun k => { line_number := k + 1, text := "x" }))]
     decide⟩

/-! ## Helper lemmas: character classes -/

/-- An ASCII lowercase letter's code point. -/
theorem isLower_toNat (c : Char) (h : c.isLower = true) :
    97 ≤ c.toNat ∧ c.toNat ≤ 122 := by
  simp [Char.isLower] at h
  obtain ⟨h1, h2⟩ := h
  exact ⟨h1, h2⟩

/-- An ASCII uppercase letter's code point. -/
theorem isUpper_toNat (c : Char) (h : c.isUpper = true) :
    65 ≤ c.toNat ∧ c.toNat ≤ 90 := by
  simp [Char.isUpper] at h
  obtain ⟨h1, h2⟩ := h
  exact ⟨h1, h2⟩

/-- An ASCII digit's code point. -/
theorem isDigit_toNat (c : Char) (h : c.isDigit = true) :
    48 ≤ c.toNat ∧ c.toNat ≤ 57 := by
  simp [Char.isDigit] at h
  obtain ⟨h1, h2⟩ := h
  exact ⟨h1, h2⟩

/-- An ASCII letter's code point. -/
theorem isAlpha_toNat (c : Char) (h : c.isAlpha = true) :
    65 ≤ c.toNat ∧ c.toNat ≤ 122 := by
  rw [Char.isAlpha, Bool.or_eq_true] at h
  rcases h with h | h
  · have := isUpper_toNat c h
    omega
  · have := isLower_toNat c h
    omega

/-- Word characters (digits and ASCII letters) are not whitespace. -/
theorem ws_false_of_word (c : Char) (h1 : 48 ≤ c.toNat) (h2 : c.toNat ≤ 122) :
    isJsWs c = false := by
  simp [isJsWs]
  omega

/-! ## Helper lemmas: the whitespace collapse -/

/-- Characters of the collapse's output come from the input or are the
inserted space. -/
theorem mem_collapseWsAux (pw : Bool) (l : List Char) (c : Char)
    (h : c ∈ collapseWsAux pw l) : c ∈ l ∨ c = ' ' := by
  induction l generalizing pw with
  | nil => simp [collapseWsAux] at h
  | cons x rest ih =>
    rw [collapseWsAux] at h
    by_cases hx : isJsWs x = true
    · rw [if_pos hx] at h
      by_cases hpw : pw = true
      · rw [if_pos hpw] at h
        rcases ih true h with h' | h'
        · exact Or.inl (List.mem_cons_of_mem x h')
        · exact Or.inr h'
      · rw [if_neg hpw, List.mem_cons] at h
        rcases h with rfl | h
        · exact Or.inr rfl
        · rcases ih true h with h' | h'
          · exact Or.inl (List.mem_cons_of_mem x h')
          · exact Or.inr h'
    · rw [if_neg hx, List.mem_cons] at h
      rcases h with rfl | h
      · exact Or.inl (List.mem_cons_self c rest)
      · rcases ih false h with h' | h'
        · exact Or.inl (List.mem_cons_of_mem x h')
        · exact Or.inr h'

/-- Every whitespace character of the collapse's output is the single
ASCII space. -/
theorem collapseWsAux_ws_space (pw : Bool) (l : List Char) (c : Char)
    (hc : c ∈ collapseWsAux pw l) (hws : isJsWs c = true) : c = ' ' := by
  induction l generalizing pw with
  | nil => simp [collapseWsAux] at hc
  | cons x rest ih =>
    rw [collapseWsAux] at hc
    by_cases hx : isJsWs x = true
    · rw [if_pos hx] at hc
      by_cases hpw : pw = true
      · rw [if_pos hpw] at hc
        exact ih true hc
      · rw [if_neg hpw, List.mem_cons] at hc
        rcases hc with rfl | hc
        · rfl
        · exact ih true hc
    · rw [if_neg hx, List.mem_cons] at hc
      rcases hc with rfl | hc
      · exact absurd hws (by simp [hx])
      · exact ih false hc

/-- After the collapse has just consumed whitespace, the next emitted
character is not whitespace. -/
theorem collapseWsAux_true_head (l : List Char) (c : Char)
    (h : (collapseWsAux true l).head? = some c) : isJsWs c = false := by
  induction l with
  | nil => simp [collapseWsAux] at h
  | cons x rest ih =>
    rw [collapseWsAux] at h
    by_cases hx : isJsWs x = true
    · rw [if_pos hx] at h
      exact ih h
    · rw [if_neg hx] at h
      rw [List.head?_cons, Option.some_inj] at h
      subst h
      simp [hx]

/-- The collapse's output never has two adjacent whitespace
characters. -/
theorem collapseWsAux_chain (pw : Bool) (l : List Char) :
    List.Chain' (fun a b => ¬(isJsWs a = true ∧ isJsWs b = true))
      (collapseWsAux pw l) := by
  induction l generalizing pw with
  | nil => simp [collapseWsAux]
  | cons x rest ih =>
    rw [collapseWsAux]
    by_cases hx : isJsWs x = true
    · rw [if_pos hx]
      by_cases hpw : pw = true
      · rw [if_pos hpw]
        exact ih true
      · rw [if_neg hpw, List.chain'_cons']
        refine ⟨?_, ih true⟩
        intro y hy
        intro hcon
        have := collapseWsAux_true_head rest y hy
        rw [this] at hcon
        exact Bool.false_ne_true hcon.2
    · rw [if_neg hx, List.chain'_cons']
      refine ⟨?_, ih false⟩
      intro y hy hcon
      exact hx hcon.1

/-- When the flag is irrelevant (next character is not whitespace, or
the list is empty), the flag value does not matter. -/
theorem collapseWsAux_true_eq_false (l : List Char)
    (h : ∀ c, l.head? = some c → isJsWs c = false) :
    collapseWsAux true l = collapseWsAux false l := by
  cases l with
  | nil => rfl
  | cons x rest =>
    have hx : isJsWs x = false := h x rfl
    rw [collapseWsAux, collapseWsAux, if_neg (by simp [hx]), if_neg (by simp [hx])]

/-- The collapse is the identity on lists whose whitespace is already
single spaces with no two adjacent. -/
theorem collapseWsAux_eq_self (l : List Char)
    (h1 : ∀ c ∈ l, isJsWs c = true → c = ' ')
    (h2 : List.Chain' (fun a b => ¬(isJsWs a = true ∧ isJsWs b = true)) l) :
    collapseWsAux false l = l := by
  induction l with
  | nil => rfl
  | cons x rest ih =>
    rw [collapseWsAux]
    by_cases hx : isJsWs x = true
    · rw [if_pos hx, if_neg Bool.false_ne_true]
      have hxsp : x = ' ' := h1 x (List.mem_cons_self x rest) hx
      have hhead : ∀ c, rest.head? = some c → isJsWs c = false := by
        intro c hc
        rw [List.chain'_cons'] at h2
        have := h2.1 c hc
        by_contra hcws
        exact this ⟨hx, by simpa using hcws⟩
      rw [collapseWsAux_true_eq_false rest hhead, hxsp]
      rw [ih (fun c hc hw => h1 c (List.mem_cons_of_mem x hc) hw)
        (List.Chain'.tail h2)]
    · rw [if_neg hx]
      rw [ih (fun c hc hw => h1 c (List.mem_cons_of_mem x hc) hw)
        (List.Chain'.tail h2)]

/-! ## Helper lemmas: the boundary-space insertion -/

/-- Lists with no two leading elements are left unchanged. -/
theorem insertBetween_short (p : Char → Char → Bool) (l : List Char)
    (hl : ∀ (c1 c2 : Char) (rest : List Char), l = c1 :: c2 :: rest → False) :
    insertBetween p l = l := by
  cases l with
  | nil => rfl
  | cons c rest =>
    cases rest with
    | nil => rfl
    | cons c2 rest2 => exact absurd rfl (hl c c2 rest2)

/-- Insertion never changes the first character. -/
theorem insertBetween_head (p : Char → Char → Bool) (l : List Char) :
    (insertBetween p l).head? = l.head? := by
  cases l with
  | nil => rfl
  | cons c1 rest =>
    cases rest with
    | nil => rfl
    | cons c2 rest2 =>
      rw [insertBetween]
      by_cases h : p c1 c2 = true
      · rw [if_pos h]
        rfl
      · rw [if_neg h]
        rfl

/-- Characters of the insertion's output come from the input or are
the inserted space. -/
theorem mem_insertBetween (p : Char → Char → Bool) (l : List Char) :
    ∀ c ∈ insertBetween p l, c ∈ l ∨ c = ' ' := by
  induction l using insertBetween.induct with
  | p a b => exact p a b
  | case1 c1 c2 rest hp ih =>
    intro c h
    rw [insertBetween, if_pos hp] at h
    simp only [List.mem_cons] at h ⊢
    rcases h with rfl | rfl | rfl | h
    · exact Or.inl (Or.inl rfl)
    · exact Or.inr rfl
    · exact Or.inl (Or.inr (Or.inl rfl))
    · rcases ih c h with h' | h'
      · exact Or.inl (Or.inr (Or.inr h'))
      · exact Or.inr h'
  | case2 c1 c2 rest hp ih =>
    intro c h
    rw [insertBetween, if_neg hp] at h
    simp only [List.mem_cons] at h ⊢
    rcases h with rfl | h
    · exact Or.inl (Or.inl rfl)
    · rcases ih c h with h' | h'
      · simp only [List.mem_cons] at h'
        rcases h' with rfl | h'
        · exact Or.inl (Or.inr (Or.inl rfl))
        · exact Or.inl (Or.inr (Or.inr h'))
      · exact Or.inr h'
  | case3 l hl =>
    intro c h
    rw [insertBetween_short p l hl] at h
    exact Or.inl h

/-- The insertion is the identity when no pair matches. -/
theorem insertBetween_eq_self (p : Char → Char → Bool) (l : List Char) :
    List.Chain' (fun a b => p a b = false) l → insertBetween p l = l := by
  induction l using insertBetween.induct with
  | p a b => exact p a b
  | case1 c1 c2 rest hp ih =>
    intro h
    rw [List.chain'_cons] at h
    rw [h.1] at hp
    exact absurd hp Bool.false_ne_true
  | case2 c1 c2 rest hp ih =>
    intro h
    rw [insertBetween, if_neg hp, ih (List.Chain'.tail h)]
  | case3 l hl =>
    intro _
    exact insertBetween_short p l hl

/-- After the insertion no pair matches, provided a match target can
never start a new match and the space matches nothing. -/
theorem insertBetween_chain (p : Char → Char → Bool)
    (hseq : ∀ a b c, p a b = true → p b c = false)
    (hsp : ∀ a, p a ' ' = false) (hps : ∀ b, p ' ' b = false) (l : List Char) :
    List.Chain' (fun a b => p a b = false) (insertBetween p l) := by
  induction l using insertBetween.induct with
  | p a b => exact p a b
  | case1 c1 c2 rest hp ih =>
    rw [insertBetween, if_pos hp, List.chain'_cons, List.chain'_cons]
    refine ⟨hsp c1, hps c2, ?_⟩
    rw [List.chain'_cons']
    refine ⟨?_, ih⟩
    intro y hy
    rw [insertBetween_head] at hy
    exact hseq c1 c2 y hp
  | case2 c1 c2 rest hp ih =>
    rw [insertBetween, if_neg hp, List.chain'_cons']
    refine ⟨?_, ih⟩
    intro y hy
    rw [insertBetween_head, List.head?_cons, Option.mem_def, Option.some_inj] at hy
    subst hy
    simpa using hp
  | case3 l hl =>
    rw [insertBetween_short p l hl]
    cases l with
    | nil => simp
    | cons c rest =>
      cases rest with
      | nil => simp
      | cons c2 rest2 => exact absurd rfl (hl c c2 rest2)

/-- The insertion preserves the absence of any adjacency `R` that the
inserted space cannot create. -/
theorem insertBetween_chain_pres (p : Char → Char → Bool) (R : Char → Char → Prop)
    (hR1 : ∀ a b, p a b = true → ¬R a ' ')
    (hR2 : ∀ a b, p a b = true → ¬R ' ' b) (l : List Char) :
    List.Chain' (fun a b => ¬R a b) l →
      List.Chain' (fun a b => ¬R a b) (insertBetween p l) := by
  induction l using insertBetween.induct with
  | p a b => exact p a b
  | case1 c1 c2 rest hp ih =>
    intro h
    rw [List.chain'_cons] at h
    rw [insertBetween, if_pos hp, List.chain'_cons, List.chain'_cons]
    refine ⟨hR1 c1 c2 hp, hR2 c1 c2 hp, ?_⟩
    rw [List.chain'_cons']
    refine ⟨?_, ih (List.Chain'.tail h.2)⟩
    intro y hy
    rw [insertBetween_head] at hy
    exact (List.chain'_cons'.1 h.2).1 y hy
  | case2 c1 c2 rest hp ih =>
    intro h
    rw [List.chain'_cons] at h
    rw [insertBetween, if_neg hp, List.chain'_cons']
    refine ⟨?_, ih h.2⟩
    intro y hy
    rw [insertBetween_head, List.head?_cons, Option.mem_def, Option.some_inj] at hy
    subst hy
    exact h.1
  | case3 l hl =>
    intro h
    rw [insertBetween_short p l hl]
    exact h

/-! ## Helper lemmas: trimming, splitting and joining -/

/-- The first character surviving `dropWhile` fails the predicate. -/
theorem head_dropWhile_false (p : Char → Bool) (l : List Char) :
    ∀ c, (l.dropWhile p).head? = some c → p c = false := by
  induction l with
  | nil =>
    intro c h
    simp at h
  | cons x rest ih =>
    intro c h
    rw [List.dropWhile_cons] at h
    by_cases hx : p x = true
    · rw [if_pos hx] at h
      exact ih c h
    · rw [if_neg hx] at h
      rw [List.head?_cons, Option.some_inj] at h
      subst h
      simpa using hx

/-- `dropWhile` is the identity when the head fails the predicate. -/
theorem dropWhile_eq_self_of_head (p : Char → Bool) (l : List Char)
    (h : ∀ c, l.head? = some c → p c = false) : l.dropWhile p = l := by
  cases l with
  | nil => rfl
  | cons x rest =>
    rw [List.dropWhile_cons, if_neg]
    simp [h x rfl]

/-- The trim keeps a prefix of the left-trimmed list. -/
theorem trimChars_prefix_left (l : List Char) :
    trimChars l <+: l.dropWhile isJsWs := by
  rw [trimChars, ← List.reverse_suffix, List.reverse_reverse]
  exact List.dropWhile_suffix isJsWs

/-- The trim is an infix of its input. -/
theorem trimChars_within (l : List Char) : trimChars l <:+: l :=
  List.IsInfix.trans ( List.IsPrefix.isInfix (trimChars_prefix_left l))
    ( List.IsSuffix.isInfix (List.dropWhile_suffix isJsWs))

/-- Characters of the trim come from the input. -/
theorem mem_trimChars (l : List Char) (c : Char) (h : c ∈ trimChars l) : c ∈ l :=
  List.Sublist.mem h ( List.IsInfix.sublist (trimChars_within l))

/-- Any adjacency-freedom survives trimming. -/
theorem trimChars_chain (R : Char → Char → Prop) (l : List Char)
    (h : List.Chain' R l) : List.Chain' R (trimChars l) :=
  List.Chain'.infix h (trimChars_within l)

/-- The trim's first character is not whitespace. -/
theorem trimChars_head (l : List Char) (c : Char)
    (h : (trimChars l).head? = some c) : isJsWs c = false := by
  obtain ⟨t, ht⟩ := trimChars_prefix_left l
  apply head_dropWhile_false isJsWs l c
  rw [← ht]
  cases htr : trimChars l with
  | nil =>
    rw [htr] at h
    simp at h
  | cons y ys =>
    rw [htr] at h
    rw [List.head?_cons, Option.some_inj] at h
    subst h
    rfl

/-- The trim's last character is not whitespace. -/
theorem trimChars_last (l : List Char) (c : Char)
    (h : (trimChars l).getLast? = some c) : isJsWs c = false := by
  rw [trimChars, List.getLast?_reverse] at h
  exact head_dropWhile_false isJsWs _ c h

/-- The trim is the identity when both ends are already clean. -/
theorem trimChars_eq_self (l : List Char)
    (hh : ∀ c, l.head? = some c → isJsWs c = false)
    (hl : ∀ c, l.getLast? = some c → isJsWs c = false) : trimChars l = l := by
  have hrev : ∀ c, l.reverse.head? = some c → isJsWs c = false := by
    intro c hc
    rw [List.head?_reverse] at hc
    exact hl c hc
  rw [trimChars, dropWhile_eq_self_of_head isJsWs l hh,
    dropWhile_eq_self_of_head isJsWs l.reverse hrev, List.reverse_reverse]

/-- Splitting on an absent separator is a no-op. -/
theorem splitOnChar_no_sep (sep : Char) (l : List Char) (h : sep ∉ l) :
    splitOnChar sep l = [l] := by
  induction l with
  | nil => rfl
  | cons c rest ih =>
    have hc : ¬(c = sep) := by
      intro hce
      exact h (by rw [← hce]; exact List.mem_cons_self c rest)
    rw [splitOnChar, if_neg hc, ih (fun hm => h (List.mem_cons_of_mem c hm))]

/-- Joining a single piece is that piece. -/
theorem joinNl_singleton (l : List Char) : joinNl [l] = l := by
  simp [joinNl, List.intercalate]

/-- The final phase of `cleanOCRText` on newline-free text: trim, and
drop the result when it is empty. -/
theorem finalPhase_no_nl (s : List Char) (h : '\n' ∉ s) :
    joinNl (((splitOnNl s).map trimChars).filter (fun x => !x.isEmpty)) =
      if trimChars s = [] then [] else trimChars s := by
  rw [splitOnNl, splitOnChar_no_sep '\n' s h, List.map_cons, List.map_nil]
  by_cases ht : trimChars s = []
  · rw [if_pos ht, ht]
    simp [joinNl, List.intercalate]
  · rw [if_neg ht]
    have hne : (trimChars s).isEmpty = false := by
      simpa [List.isEmpty_iff] using ht
    simp [List.filter, hne, joinNl_singleton]

/-! ## Helper lemmas: character-class facts -/

/-- The punctuation normalization maps every character either to one
of its three fixed targets or to itself. -/
theorem charNorm_cases (c : Char) :
    charNorm c = '\'' ∨ charNorm c = '"' ∨ charNorm c = '-' ∨ charNorm c = c := by
  by_cases h1 : c.toNat = 0x2018 ∨ c.toNat = 0x2019
  · exact Or.inl (by rw [charNorm, if_pos (by simpa using h1)])
  · by_cases h2 : c.toNat = 0x201C ∨ c.toNat = 0x201D
    · refine Or.inr (Or.inl ?_)
      rw [charNorm, if_neg (by simpa using h1), if_pos (by simpa using h2)]
    · by_cases h3 : c.toNat = 0x2013 ∨ c.toNat = 0x2014
      · refine Or.inr (Or.inr (Or.inl ?_))
        rw [charNorm, if_neg (by simpa using h1), if_neg (by simpa using h2),
          if_pos (by simpa using h3)]
      · refine Or.inr (Or.inr (Or.inr ?_))
        rw [charNorm, if_neg (by simpa using h1), if_neg (by simpa using h2),
          if_neg (by simpa using h3)]

/-- The punctuation normalization fixes its own output. -/
theorem charNorm_idem (c : Char) : charNorm (charNorm c) = charNorm c := by
  rcases charNorm_cases c with h | h | h | h <;> rw [h]
  · decide
  · decide
  · decide
  · exact h

/-- The punctuation normalization never produces a control character. -/
theorem charNorm_not_ctl (c : Char) (h : isCtl c = false) :
    isCtl (charNorm c) = false := by
  rcases charNorm_cases c with hc | hc | hc | hc <;> rw [hc]
  · decide
  · decide
  · decide
  · exact h

/-- An uppercase letter is not lowercase. -/
theorem upper_not_lower (b : Char) (h : b.isUpper = true) : b.isLower = false := by
  by_contra hcon
  have h1 := isUpper_toNat b h
  have h2 := isLower_toNat b (by simpa using hcon)
  omega

/-- A letter is not a digit. -/
theorem alpha_not_digit (b : Char) (h : b.isAlpha = true) : b.isDigit = false := by
  by_contra hcon
  have h1 := isAlpha_toNat b h
  have h2 := isDigit_toNat b (by simpa using hcon)
  omega

/-- A digit is not a letter. -/
theorem digit_not_alpha (b : Char) (h : b.isDigit = true) : b.isAlpha = false := by
  by_contra hcon
  have h1 := isDigit_toNat b h
  have h2 := isAlpha_toNat b (by simpa using hcon)
  omega

/-- A lower→upper match involves no whitespace. -/
theorem luP_not_ws (a b : Char) (h : luP a b = true) :
    isJsWs a = false ∧ isJsWs b = false := by
  rw [luP, Bool.and_eq_true] at h
  have h1 := isLower_toNat a h.1
  have h2 := isUpper_toNat b h.2
  exact ⟨ws_false_of_word a (by omega) (by omega), ws_false_of_word b (by omega) (by omega)⟩

/-- A digit→letter match involves no whitespace. -/
theorem dlP_not_ws (a b : Char) (h : dlP a b = true) :
    isJsWs a = false ∧ isJsWs b = false := by
  rw [dlP, Bool.and_eq_true] at h
  have h1 := isDigit_toNat a h.1
  have h2 := isAlpha_toNat b h.2
  exact ⟨ws_false_of_word a (by omega) (by omega), ws_false_of_word b (by omega) (by omega)⟩

/-- A letter→digit match involves no whitespace. -/
theorem ldP_not_ws (a b : Char) (h : ldP a b = true) :
    isJsWs a = false ∧ isJsWs b = false := by
  rw [ldP, Bool.and_eq_true] at h
  have h1 := isAlpha_toNat a h.1
  have h2 := isDigit_toNat b h.2
  exact ⟨ws_false_of_word a (by omega) (by omega), ws_false_of_word b (by omega) (by omega)⟩

/-- The space character matches no boundary pattern on either side. -/
theorem space_no_match :
    (∀ a, luP a ' ' = false) ∧ (∀ b, luP ' ' b = false) ∧
    (∀ a, dlP a ' ' = false) ∧ (∀ b, dlP ' ' b = false) ∧
    (∀ a, ldP a ' ' = false) ∧ (∀ b, ldP ' ' b = false) := by
  refine ⟨?_, ?_, ?_, ?_, ?_, ?_⟩ <;> intro x
  · rw [luP, show (' '.isUpper) = false from by decide, Bool.and_false]
  · rw [luP, show (' '.isLower) = false from by decide, Bool.false_and]
  · rw [dlP, show (' '.isAlpha) = false from by decide, Bool.and_false]
  · rw [dlP, show (' '.isDigit) = false from by decide, Bool.false_and]
  · rw [ldP, show (' '.isDigit) = false from by decide, Bool.and_false]
  · rw [ldP, show (' '.isAlpha) = false from by decide, Bool.false_and]

/-! ## Helper lemmas: the normalization pipeline -/

/-- Bool-level and Prop-level adjacency-freedom, one direction. -/
theorem chain_not_of_false (q : Char → Char → Bool) (m : List Char)
    (h : List.Chain' (fun a b => q a b = false) m) :
    List.Chain' (fun a b => ¬(q a b = true)) m :=
  List.Chain'.imp (fun a b hab => by simp [hab]) h

/-- Bool-level and Prop-level adjacency-freedom, other direction. -/
theorem chain_false_of_not (q : Char → Char → Bool) (m : List Char)
    (h : List.Chain' (fun a b => ¬(q a b = true)) m) :
    List.Chain' (fun a b => q a b = false) m :=
  List.Chain'.imp (fun a b hab => by simpa using hab) h

/-- Characters surviving the collapse-and-insert pipeline come from
its input or are spaces. -/
theorem stage_mem (m : List Char) (c : Char)
    (h : c ∈ insertBetween ldP (insertBetween dlP
      (insertBetween luP (collapseWsAux false m)))) : c ∈ m ∨ c = ' ' := by
  rcases mem_insertBetween ldP _ c h with h | h
  · rcases mem_insertBetween dlP _ c h with h | h
    · rcases mem_insertBetween luP _ c h with h | h
      · exact mem_collapseWsAux false m c h
      · exact Or.inr h
    · exact Or.inr h
  · exact Or.inr h

/-- After the pipeline, every whitespace character is a single ASCII
space. -/
theorem stage_ws_space (m : List Char) (c : Char)
    (h : c ∈ insertBetween ldP (insertBetween dlP
      (insertBetween luP (collapseWsAux false m))))
    (hws : isJsWs c = true) : c = ' ' := by
  rcases mem_insertBetween ldP _ c h with h | h
  · rcases mem_insertBetween dlP _ c h with h | h
    · rcases mem_insertBetween luP _ c h with h | h
      · exact collapseWsAux_ws_space false m c h hws
      · exact h
    · exact h
  · exact h

/-- After the pipeline, no two whitespace characters are adjacent. -/
theorem stage_ws_chain (m : List Char) :
    List.Chain' (fun a b => ¬(isJsWs a = true ∧ isJsWs b = true))
      (insertBetween ldP (insertBetween dlP
        (insertBetween luP (collapseWsAux false m)))) := by
  have h0 := collapseWsAux_chain false m
  have h1 := insertBetween_chain_pres luP
    (fun a b => isJsWs a = true ∧ isJsWs b = true)
    (fun a b hp hco => by
      have hco' : isJsWs a = true ∧ isJsWs ' ' = true := hco
      rw [(luP_not_ws a b hp).1] at hco'
      exact Bool.false_ne_true hco'.1)
    (fun a b hp hco => by
      have hco' : isJsWs ' ' = true ∧ isJsWs b = true := hco
      rw [(luP_not_ws a b hp).2] at hco'
      exact Bool.false_ne_true hco'.2) _ h0
  have h2 := insertBetween_chain_pres dlP
    (fun a b => isJsWs a = true ∧ isJsWs b = true)
    (fun a b hp hco => by
      have hco' : isJsWs a = true ∧ isJsWs ' ' = true := hco
      rw [(dlP_not_ws a b hp).1] at hco'
      exact Bool.false_ne_true hco'.1)
    (fun a b hp hco => by
      have hco' : isJsWs ' ' = true ∧ isJsWs b = true := hco
      rw [(dlP_not_ws a b hp).2] at hco'
      exact Bool.false_ne_true hco'.2) _ h1
  exact insertBetween_chain_pres ldP
    (fun a b => isJsWs a = true ∧ isJsWs b = true)
    (fun a b hp hco => by
      have hco' : isJsWs a = true ∧ isJsWs ' ' = true := hco
      rw [(ldP_not_ws a b hp).1] at hco'
      exact Bool.false_ne_true hco'.1)
    (fun a b hp hco => by
      have hco' : isJsWs ' ' = true ∧ isJsWs b = true := hco
      rw [(ldP_not_ws a b hp).2] at hco'
      exact Bool.false_ne_true hco'.2) _ h2

/-- After the pipeline, no lower→upper boundary is left un-spaced. -/
theorem stage_lu (m : List Char) :
    List.Chain' (fun a b => luP a b = false)
      (insertBetween ldP (insertBetween dlP
        (insertBetween luP (collapseWsAux false m)))) := by
  have h1 := insertBetween_chain luP
    (fun a b c hp => by
      rw [luP, Bool.and_eq_true] at hp
      rw [luP, upper_not_lower b hp.2, Bool.false_and])
    space_no_match.1 space_no_match.2.1 (collapseWsAux false m)
  have h2 := insertBetween_chain_pres dlP (fun a b => luP a b = true)
    (fun a b _ hco => by
      have hco' : luP a ' ' = true := hco
      rw [space_no_match.1 a] at hco'
      exact Bool.false_ne_true hco')
    (fun a b _ hco => by
      have hco' : luP ' ' b = true := hco
      rw [space_no_match.2.1 b] at hco'
      exact Bool.false_ne_true hco')
    _ (chain_not_of_false luP _ h1)
  have h3 := insertBetween_chain_pres ldP (fun a b => luP a b = true)
    (fun a b _ hco => by
      have hco' : luP a ' ' = true := hco
      rw [space_no_match.1 a] at hco'
      exact Bool.false_ne_true hco')
    (fun a b _ hco => by
      have hco' : luP ' ' b = true := hco
      rw [space_no_match.2.1 b] at hco'
      exact Bool.false_ne_true hco')
    _ h2
  exact chain_false_of_not luP _ h3

/-- After the pipeline, no digit→letter boundary is left un-spaced. -/
theorem stage_dl (m : List Char) :
    List.Chain' (fun a b => dlP a b = false)
      (insertBetween ldP (insertBetween dlP
        (insertBetween luP (collapseWsAux false m)))) := by
  have h2 := insertBetween_chain dlP
    (fun a b c hp => by
      rw [dlP, Bool.and_eq_true] at hp
      rw [dlP, alpha_not_digit b hp.2, Bool.false_and])
    space_no_match.2.2.1 space_no_match.2.2.2.1
    (insertBetween luP (collapseWsAux false m))
  have h3 := insertBetween_chain_pres ldP (fun a b => dlP a b = true)
    (fun a b _ hco => by
      have hco' : dlP a ' ' = true := hco
      rw [space_no_match.2.2.1 a] at hco'
      exact Bool.false_ne_true hco')
    (fun a b _ hco => by
      have hco' : dlP ' ' b = true := hco
      rw [space_no_match.2.2.2.1 b] at hco'
      exact Bool.false_ne_true hco')
    _ (chain_not_of_false dlP _ h2)
  exact chain_false_of_not dlP _ h3

/-- After the pipeline, no letter→digit boundary is left un-spaced. -/
theorem stage_ld (m : List Char) :
    List.Chain' (fun a b => ldP a b = false)
      (insertBetween ldP (insertBetween dlP
        (insertBetween luP (collapseWsAux false m)))) :=
  insertBetween_chain ldP
    (fun a b c hp => by
      rw [ldP, Bool.and_eq_true] at hp
      rw [ldP, digit_not_alpha b hp.2, Bool.false_and])
    space_no_match.2.2.2.2.1 space_no_match.2.2.2.2.2
    (insertBetween dlP (insertBetween luP (collapseWsAux false m)))

/-- `cleanChars` yields the empty list or a list satisfying the output
invariant. -/
theorem cleanChars_shape (l : List Char) :
    cleanChars l = [] ∨ CleanInv (cleanChars l) := by
  have hnl : '\n' ∉ insertBetween ldP (insertBetween dlP (insertBetween luP
      (collapseWsAux false ((l.filter (fun c => !isCtl c)).map charNorm)))) := by
    intro hmem
    have := stage_ws_space _ '\n' hmem (by decide)
    exact absurd this (by decide)
  have hclean : cleanChars l =
      if trimChars (insertBetween ldP (insertBetween dlP (insertBetween luP
          (collapseWsAux false ((l.filter (fun c => !isCtl c)).map charNorm))))) = []
      then []
      else trimChars (insertBetween ldP (insertBetween dlP (insertBetween luP
          (collapseWsAux false ((l.filter (fun c => !isCtl c)).map charNorm))))) := by
    rw [show cleanChars l = joinNl (((splitOnNl (insertBetween ldP (insertBetween dlP
      (insertBetween luP (collapseWsAux false ((l.filter (fun c => !isCtl c)).map
      charNorm)))))).map trimChars).filter (fun x => !x.isEmpty)) from rfl]
    exact finalPhase_no_nl _ hnl
  by_cases hempty : trimChars (insertBetween ldP (insertBetween dlP (insertBetween luP
      (collapseWsAux false ((l.filter (fun c => !isCtl c)).map charNorm))))) = []
  · left
    rw [hclean, if_pos hempty]
  · right
    rw [hclean, if_neg hempty]
    refine ⟨?_, ?_, ?_, ?_, ?_, ?_, ?_, ?_, ?_⟩
    · intro c hc
      rcases stage_mem _ c (mem_trimChars _ c hc) with h | h
      · rw [List.mem_map] at h
        obtain ⟨x, hx, rfl⟩ := h
        rw [List.mem_filter] at hx
        exact charNorm_not_ctl x (by simpa using hx.2)
      · rw [h]
        decide
    · intro c hc
      rcases stage_mem _ c (mem_trimChars _ c hc) with h | h
      · rw [List.mem_map] at h
        obtain ⟨x, _, rfl⟩ := h
        exact charNorm_idem x
      · rw [h]
        decide
    · intro c hc hws
      exact stage_ws_space _ c (mem_trimChars _ c hc) hws
    · exact trimChars_chain _ _ (stage_ws_chain _)
    · exact trimChars_chain _ _ (stage_lu _)
    · exact trimChars_chain _ _ (stage_dl _)
    · exact trimChars_chain _ _ (stage_ld _)
    · exact trimChars_head _
    · exact trimChars_last _

/-- `cleanChars` is the identity on lists satisfying the output
invariant. -/
theorem cleanChars_eq_self (l : List Char) (h : CleanInv l) : cleanChars l = l := by
  obtain ⟨h1, h2, h3, h4, h5, h6, h7, h8, h9⟩ := h
  have hfilter : l.filter (fun c => !isCtl c) = l :=
    List.filter_eq_self.2 (fun c hc => by simp [h1 c hc])
  have hmap : l.map charNorm = l.map id := List.map_congr_left (fun a ha => h2 a ha)
  have hcollapse : collapseWsAux false l = l := collapseWsAux_eq_self l h3 h4
  have hins1 : insertBetween luP l = l := insertBetween_eq_self luP l h5
  have hins2 : insertBetween dlP l = l := insertBetween_eq_self dlP l h6
  have hins3 : insertBetween ldP l = l := insertBetween_eq_self ldP l h7
  have hnl : '\n' ∉ l := by
    intro hmem
    have := h3 '\n' hmem (by decide)
    exact absurd this (by decide)
  have htrim : trimChars l = l := trimChars_eq_self l h8 h9
  rw [show cleanChars l = joinNl (((splitOnNl (insertBetween ldP (insertBetween dlP
    (insertBetween luP (collapseWsAux false ((l.filter (fun c => !isCtl c)).map
    charNorm)))))).map trimChars).filter (fun x => !x.isEmpty)) from rfl]
  rw [hfilter, hmap, List.map_id, hcollapse, hins1, hins2, hins3]
  rw [finalPhase_no_nl l hnl, htrim]
  by_cases hl : l = []
  · rw [if_pos hl, hl]
  · rw [if_neg hl]

/-- Idempotence at the character-list level. -/
theorem cleanChars_idem (l : List Char) :
    cleanChars (cleanChars l) = cleanChars l := by
  rcases cleanChars_shape l with h | h
  · rw [h]
    decide
  · exact cleanChars_eq_self _ h

/-! ## Claim C8 -/

/-- C8: the text normalizer is idempotent — for every input string,
`cleanOCRText (cleanOCRText x) = cleanOCRText x`. -/
theorem cleanOCRText_idempotent (s : String) :
    cleanOCRText (cleanOCRText s) = cleanOCRText s :=
  congrArg String.mk (cleanChars_idem s.data)

end CalendarAI
